import Mathlib

set_option linter.unusedVariables false

/-! Verification of the core text-transformation logic of the DANEEL paper
build scripts (`scripts/build-paper-ascii.py`, `build-paper-plantuml.py`,
`build-paper-mermaid.py`, `build-arxiv-package.py`, `patch-paper-tex.py`):
the mermaid block extractor, the multi-span splice strategies, the PlantUML
transport encoding stage, the bare-URL wrapper and the front-matter
stripper, embedded shallowly over `List Char` buffers. -/

namespace Daneel

/-- `slice s a b` is the Python slice `s[a:b]` (for `a ≤ b`, in bounds). -/
def slice (s : List Char) (a b : Nat) : List Char := (s.drop a).take (b - a)

/-- The spec's Replacement record: a half-open target span plus the text to
put there.  The spec calls the second field `end`; that is a keyword here,
so it is named `stop` (Python `match.end()`). -/
structure Replacement where
  start : Nat
  stop : Nat
  newText : List Char
deriving DecidableEq, Repr

/-- The spec's `lengthDelta = len(newText) - (end - start)`. -/
def Replacement.lengthDelta (r : Replacement) : Int :=
  (r.newText.length : Int) - ((r.stop : Int) - (r.start : Int))

/-- Target spans listed in ascending order, pairwise non-overlapping, and
starting at or after position `p`. -/
def chainedB (p : Nat) : List Replacement → Bool
  | [] => true
  | r :: rs => decide (p ≤ r.start) && decide (r.start ≤ r.stop) && chainedB r.stop rs

/-- Every target span stops at or before position `n`. -/
def boundsB (n : Nat) (rs : List Replacement) : Bool :=
  rs.all fun r => decide (r.stop ≤ n)

/-- The spec's single-pass gap-copy splice (§4.2): copy the gap before each
span verbatim from the one immutable source buffer, emit `newText` at the
span, copy the final tail.  `p` is the read cursor into the source. -/
def spliceGapAux (s : List Char) : Nat → List Replacement → List Char
  | p, [] => s.drop p
  | p, r :: rs => slice s p r.start ++ r.newText ++ spliceGapAux s r.stop rs

/-- Gap-copy splice of a whole buffer. -/
def spliceGap (s : List Char) (rs : List Replacement) : List Char :=
  spliceGapAux s 0 rs

/-- One step of the forward in-place edit strategy of `main` in
`build-paper-ascii.py` (lines 174-189), `build-paper-plantuml.py` and
`build-paper-mermaid.py`:
`processed = processed[:start+offset] + newText + processed[end+offset:]`
followed by `offset += len(newText) - (end - start)`.  The adjusted indices
are clamped at 0 by `Int.toNat`; under the ascending-spans precondition
they are never negative (Python would index from the buffer end there). -/
def spliceFwdStep (acc : List Char × Int) (r : Replacement) : List Char × Int :=
  ((acc.1.take ((r.start : Int) + acc.2).toNat) ++ r.newText ++
     (acc.1.drop ((r.stop : Int) + acc.2).toNat),
   acc.2 + ((r.newText.length : Int) - ((r.stop : Int) - (r.start : Int))))

/-- The forward offset-tracking splice loop of the build scripts. -/
def spliceFwd (s : List Char) (rs : List Replacement) : List Char :=
  (rs.foldl spliceFwdStep (s, 0)).1

/-- One backward splice step of `main` in `patch-paper-tex.py` (lines
84-93): `content = content[:match.start()] + replacement +
content[match.end():]`, iterating over the matches from last to first so
that no offset bookkeeping is needed. -/
def spliceBwdStep (r : Replacement) (acc : List Char) : List Char :=
  acc.take r.start ++ r.newText ++ acc.drop r.stop

/-- The backward (end-to-start) splice loop of `patch-paper-tex.py`. -/
def spliceBwd (s : List Char) (rs : List Replacement) : List Char :=
  rs.reverse.foldl (fun acc r => spliceBwdStep r acc) s

theorem chainedB_cons {p : Nat} {r : Replacement} {rs : List Replacement}
    (h : chainedB p (r :: rs) = true) :
    p ≤ r.start ∧ r.start ≤ r.stop ∧ chainedB r.stop rs = true := by
  simp only [chainedB, Bool.and_eq_true, decide_eq_true_eq] at h
  exact ⟨h.1.1, h.1.2, h.2⟩

theorem boundsB_cons {n : Nat} {r : Replacement} {rs : List Replacement}
    (h : boundsB n (r :: rs) = true) :
    r.stop ≤ n ∧ boundsB n rs = true := by
  simp only [boundsB, List.all_cons, Bool.and_eq_true, decide_eq_true_eq] at h
  exact ⟨h.1, by simpa [boundsB] using h.2⟩

theorem slice_length {s : List Char} {a b : Nat} (hb : b ≤ s.length) :
    (slice s a b).length = b - a := by
  simp only [slice, List.length_take, List.length_drop]
  omega

/-- Splitting the tail of the source buffer at a later position. -/
theorem drop_eq_slice_append {s : List Char} {a b : Nat} (hab : a ≤ b) :
    s.drop a = slice s a b ++ s.drop b := by
  simp only [slice]
  conv_lhs => rw [← List.take_append_drop (b - a) (s.drop a)]
  rw [List.drop_drop]
  congr 2
  omega

/-- The gap-copy splice of an identity replacement list gives back the
source buffer from the cursor on. -/
theorem spliceGapAux_ident (s : List Char) :
    ∀ (rs : List Replacement) (p : Nat), chainedB p rs = true →
      (∀ r ∈ rs, r.stop ≤ s.length ∧ r.newText = slice s r.start r.stop) →
      spliceGapAux s p rs = s.drop p := by
  intro rs
  induction rs with
  | nil => intro p _ _; rfl
  | cons r rs ih =>
    intro p hc hr
    obtain ⟨h1, h2, h3⟩ := chainedB_cons hc
    obtain ⟨hstop, hnew⟩ := hr r (List.mem_cons_self r rs)
    have htail := ih r.stop h3 (fun x hx => hr x (List.mem_cons_of_mem r hx))
    simp only [spliceGapAux, htail, hnew]
    rw [List.append_assoc, ← drop_eq_slice_append h2, ← drop_eq_slice_append h1]

/-- Generalized invariant for the forward offset-tracking loop: if the
buffer so far is a rebuilt prefix `B` followed by the untouched source tail
from cursor `p`, and the running offset equals `B.length - p`, the loop
computes the gap-copy splice of the rest. -/
theorem spliceFwd_loop_eq_gap (s : List Char) :
    ∀ (rs : List Replacement) (p : Nat) (B : List Char) (off : Int),
      chainedB p rs = true → boundsB s.length rs = true →
      (B.length : Int) = (p : Int) + off →
      (rs.foldl spliceFwdStep (B ++ s.drop p, off)).1 = B ++ spliceGapAux s p rs := by
  intro rs
  induction rs with
  | nil => intro p B off _ _ _; simp [spliceGapAux]
  | cons r rs ih =>
    intro p B off hc hb hlen
    obtain ⟨h1, h2, h3⟩ := chainedB_cons hc
    obtain ⟨hstop, hb'⟩ := boundsB_cons hb
    have hstart : r.start ≤ s.length := le_trans h2 hstop
    have hst : ((r.start : Int) + off).toNat = B.length + (r.start - p) := by omega
    have hen : ((r.stop : Int) + off).toNat = B.length + (r.stop - p) := by omega
    have htake : (B ++ s.drop p).take (((r.start : Int) + off).toNat) =
        B ++ slice s p r.start := by
      rw [hst, List.take_append_eq_append_take]
      congr 1
      · exact List.take_of_length_le (by omega)
      · simp only [slice]
        congr 1
        omega
    have hdrop : (B ++ s.drop p).drop (((r.stop : Int) + off).toNat) = s.drop r.stop := by
      rw [hen, List.drop_append_eq_append_drop]
      have h4 : (B.drop (B.length + (r.stop - p))) = [] :=
        List.drop_eq_nil_of_le (by omega)
      rw [h4, List.drop_drop]
      simp only [List.nil_append]
      congr 1
      omega
    have hslicelen : (slice s p r.start).length = r.start - p := slice_length hstart
    simp only [List.foldl_cons, spliceFwdStep, htake, hdrop]
    have hregroup :
        B ++ slice s p r.start ++ r.newText ++ s.drop r.stop =
          (B ++ slice s p r.start ++ r.newText) ++ s.drop r.stop := by
      simp [List.append_assoc]
    rw [hregroup]
    have := ih r.stop (B ++ slice s p r.start ++ r.newText)
      (off + ((r.newText.length : Int) - ((r.stop : Int) - (r.start : Int))))
      h3 hb' (by simp only [List.length_append, hslicelen]; omega)
    rw [this]
    simp [spliceGapAux, List.append_assoc]

/-- The forward offset-tracking splice equals the gap-copy splice on
ascending, in-bounds replacement lists (shared helper). -/
theorem spliceFwd_eq_gap {s : List Char} {rs : List Replacement}
    (hc : chainedB 0 rs = true) (hb : boundsB s.length rs = true) :
    spliceFwd s rs = spliceGap s rs := by
  have := spliceFwd_loop_eq_gap s rs 0 [] 0 hc hb (by simp)
  simpa [spliceFwd, spliceGap] using this

/-- The backward splice, expressed as a right fold, rebuilds the gap-copy
result from cursor `p`, leaving the prefix before `p` untouched. -/
theorem spliceBwd_foldr_eq_gap (s : List Char) :
    ∀ (rs : List Replacement) (p : Nat),
      chainedB p rs = true → boundsB s.length rs = true →
      rs.foldr spliceBwdStep s = s.take p ++ spliceGapAux s p rs := by
  intro rs
  induction rs with
  | nil => intro p _ _; simp [spliceGapAux]
  | cons r rs ih =>
    intro p hc hb
    obtain ⟨h1, h2, h3⟩ := chainedB_cons hc
    obtain ⟨hstop, hb'⟩ := boundsB_cons hb
    have htail := ih r.stop h3 hb'
    simp only [List.foldr_cons, htail, spliceBwdStep]
    have hlen : (s.take r.stop).length = r.stop := by
      rw [List.length_take]; omega
    have htake : (s.take r.stop ++ spliceGapAux s r.stop rs).take r.start = s.take r.start := by
      rw [List.take_append_eq_append_take, hlen]
      have : r.start - r.stop = 0 := by omega
      rw [this, List.take_zero, List.append_nil, List.take_take]
      congr 1
      omega
    have hdrop : (s.take r.stop ++ spliceGapAux s r.stop rs).drop r.stop =
        spliceGapAux s r.stop rs := by
      rw [List.drop_append_eq_append_drop, hlen]
      have h5 : (s.take r.stop).drop r.stop = [] :=
        List.drop_eq_nil_of_le (le_of_eq hlen)
      rw [h5, Nat.sub_self, List.drop_zero, List.nil_append]
    rw [htake, hdrop]
    have hsplit : s.take r.start = s.take p ++ slice s p r.start := by
      have : s.take r.start = (s.take r.start).take p ++ (s.take r.start).drop p :=
        (List.take_append_drop p (s.take r.start)).symm
      rw [this, List.take_take, List.drop_take]
      have hmin : min p r.start = p := by omega
      rw [hmin]
      rfl
    rw [hsplit]
    simp [spliceGapAux, List.append_assoc]

/-- The backward end-to-start splice equals the gap-copy splice on
ascending, in-bounds replacement lists (shared helper). -/
theorem spliceBwd_eq_gap {s : List Char} {rs : List Replacement}
    (hc : chainedB 0 rs = true) (hb : boundsB s.length rs = true) :
    spliceBwd s rs = spliceGap s rs := by
  have h0 : spliceBwd s rs = rs.foldr spliceBwdStep s := by
    simp [spliceBwd, List.foldl_reverse]
  rw [h0, spliceBwd_foldr_eq_gap s rs 0 hc hb]
  simp [spliceGap]

/-- Output length of the gap-copy splice: source length plus the sum of the
length deltas. -/
theorem spliceGapAux_length (s : List Char) :
    ∀ (rs : List Replacement) (p : Nat),
      chainedB p rs = true → boundsB s.length rs = true → p ≤ s.length →
      ((spliceGapAux s p rs).length : Int) =
        ((s.length - p : Nat) : Int) + (rs.map Replacement.lengthDelta).sum := by
  intro rs
  induction rs with
  | nil =>
    intro p _ _ hp
    simp [spliceGapAux, List.length_drop]
  | cons r rs ih =>
    intro p hc hb hp
    obtain ⟨h1, h2, h3⟩ := chainedB_cons hc
    obtain ⟨hstop, hb'⟩ := boundsB_cons hb
    have htail := ih r.stop h3 hb' hstop
    simp only [spliceGapAux, List.length_append, List.map_cons, List.sum_cons,
      slice_length (le_trans h2 hstop), Replacement.lengthDelta]
    push_cast
    omega

/-! ### Substring search and the mermaid block extractor -/

/-- Index of the first occurrence of `pat` as a contiguous substring of
`s` (`none` if it never occurs): the leftmost-match rule of the regex
searches used by the scripts. -/
def findSubstr (pat : List Char) : List Char → Option Nat
  | [] => if pat.isEmpty then some 0 else none
  | c :: rest =>
    if pat.isPrefixOf (c :: rest) then some 0
    else (findSubstr pat rest).map (· + 1)

theorem isPrefixOf_ex {pat t : List Char} (h : pat.isPrefixOf t = true) :
    ∃ u, t = pat ++ u := by
  induction pat generalizing t with
  | nil => exact ⟨t, rfl⟩
  | cons a as ih =>
    cases t with
    | nil => simp [List.isPrefixOf] at h
    | cons b bs =>
      simp only [List.isPrefixOf, Bool.and_eq_true, beq_iff_eq] at h
      obtain ⟨u, hu⟩ := ih h.2
      exact ⟨u, by simp [h.1, hu]⟩

theorem isPrefixOf_append (pat u : List Char) : pat.isPrefixOf (pat ++ u) = true := by
  induction pat with
  | nil => simp [List.isPrefixOf]
  | cons a as ih => simp [List.isPrefixOf, ih]

theorem findSubstr_found {pat s : List Char} {i : Nat}
    (h : findSubstr pat s = some i) :
    pat.isPrefixOf (s.drop i) = true ∧ i + pat.length ≤ s.length := by
  induction s generalizing i with
  | nil =>
    simp only [findSubstr] at h
    split at h
    · rename_i hp
      cases h
      simp only [List.isEmpty_iff] at hp
      simp [hp, List.isPrefixOf]
    · cases h
  | cons c rest ih =>
    simp only [findSubstr] at h
    split at h
    · rename_i hp
      cases h
      refine ⟨by simpa using hp, ?_⟩
      obtain ⟨u, hu⟩ := isPrefixOf_ex hp
      simp [hu]
    · cases hfind : findSubstr pat rest with
      | none => rw [hfind] at h; cases h
      | some k =>
        rw [hfind] at h
        simp only [Option.map_some'] at h
        cases h
        obtain ⟨h1, h2⟩ := ih hfind
        exact ⟨by simpa using h1, by simp only [List.length_cons]; omega⟩

theorem findSubstr_min {pat s : List Char} {i : Nat}
    (h : findSubstr pat s = some i) :
    ∀ k, k < i → pat.isPrefixOf (s.drop k) = false := by
  induction s generalizing i with
  | nil =>
    intro k hk
    simp only [findSubstr] at h
    split at h
    · cases h; omega
    · cases h
  | cons c rest ih =>
    intro k hk
    simp only [findSubstr] at h
    split at h
    · cases h; omega
    · rename_i hp
      cases hfind : findSubstr pat rest with
      | none => rw [hfind] at h; cases h
      | some m =>
        rw [hfind] at h
        simp only [Option.map_some'] at h
        cases h
        cases k with
        | zero => simpa using Bool.of_not_eq_true hp
        | succ k' => exact ih hfind k' (by omega)

/-- One extracted mermaid block: the span of the full regex match (Python
`match.start()` / `match.end()`, the latter named `stop` since `end` is a
keyword) and the inner capture group (`match.group(1)`), the text strictly
between the fences. -/
structure MermaidBlock where
  start : Nat
  stop : Nat
  group1 : List Char
deriving DecidableEq, Repr

/-- The fenced-block opener of the pattern  ```mermaid\n(.*?)```  . -/
def mermaidOpen : List Char := "```mermaid\n".toList

/-- The generic fence closer of the same pattern. -/
def fenceClose : List Char := "```".toList

/-- Worker for `extract_mermaid_blocks`, mirroring `re.finditer` with the
pattern  ```mermaid\n(.*?)```  and DOTALL: repeatedly find the next opener,
take the nearest closer after it (lazy `.*?`), emit the block and resume
strictly after the match; an opener with no later closer contributes
nothing (and since every later opener starts with the closer's backticks,
none can match either, so the scan is over).  `fuel` only bounds the
recursion: every emitted block consumes at least 14 characters of `s`, so
`s.length + 1` fuel is never exhausted. -/
def extractAux : Nat → List Char → Nat → List MermaidBlock
  | 0, _, _ => []
  | fuel + 1, s, base =>
    match findSubstr mermaidOpen s with
    | none => []
    | some i =>
      match findSubstr fenceClose (s.drop (i + mermaidOpen.length)) with
      | none => []
      | some j =>
        ⟨base + i, base + (i + mermaidOpen.length + j + fenceClose.length),
          (s.drop (i + mermaidOpen.length)).take j⟩ ::
          extractAux fuel (s.drop (i + mermaidOpen.length + j + fenceClose.length))
            (base + (i + mermaidOpen.length + j + fenceClose.length))

/-- `extract_mermaid_blocks` of `build-paper-ascii.py` (lines 121-125; the
same function appears in the three other build scripts). -/
def extract_mermaid_blocks (s : List Char) : List MermaidBlock :=
  extractAux (s.length + 1) s 0

/-- Block spans listed in ascending order, pairwise non-overlapping,
starting at or after `p`. -/
def blocksChained (p : Nat) : List MermaidBlock → Bool
  | [] => true
  | b :: t => decide (p ≤ b.start) && decide (b.start ≤ b.stop) && blocksChained b.stop t

theorem blocksChained_mono {q p : Nat} {bs : List MermaidBlock}
    (hqp : q ≤ p) (h : blocksChained p bs = true) : blocksChained q bs = true := by
  cases bs with
  | nil => rfl
  | cons b t =>
    simp only [blocksChained, Bool.and_eq_true, decide_eq_true_eq] at h ⊢
    exact ⟨⟨by omega, h.1.2⟩, h.2⟩

/-- Every block of a chained list starts at or after the chain origin. -/
theorem blocksChained_start_le {t : List MermaidBlock} :
    ∀ {q : Nat}, blocksChained q t = true → ∀ x ∈ t, q ≤ x.start := by
  induction t with
  | nil => intro q _ x hx; cases hx
  | cons y ys ihy =>
    intro q hq x hx
    simp only [blocksChained, Bool.and_eq_true, decide_eq_true_eq] at hq
    cases hx with
    | head => exact hq.1.1
    | tail _ hx' =>
      have := ihy hq.2 x hx'
      omega

/-- Extraction invariant: blocks come out in ascending document order with
in-bounds non-overlapping spans, and the buffer slice at each span is
exactly opener ++ captured content ++ closer (the raw matched text). -/
theorem extractAux_spec :
    ∀ (fuel : Nat) (s : List Char) (base : Nat),
      blocksChained base (extractAux fuel s base) = true ∧
      ∀ b ∈ extractAux fuel s base,
        b.stop ≤ base + s.length ∧
        (s.drop (b.start - base)).take (b.stop - b.start) =
          mermaidOpen ++ b.group1 ++ fenceClose := by
  intro fuel
  induction fuel with
  | zero => intro s base; exact ⟨rfl, by intro b hb; cases hb⟩
  | succ fuel ih =>
    intro s base
    cases hopen : findSubstr mermaidOpen s with
    | none =>
      simp only [extractAux, hopen]
      exact ⟨rfl, by intro b hb; cases hb⟩
    | some i =>
      cases hclose : findSubstr fenceClose (s.drop (i + mermaidOpen.length)) with
      | none =>
        simp only [extractAux, hopen, hclose]
        exact ⟨rfl, by intro b hb; cases hb⟩
      | some j =>
        simp only [extractAux, hopen, hclose]
        obtain ⟨hop, hoplen⟩ := findSubstr_found hopen
        obtain ⟨hcp, hcplen⟩ := findSubstr_found hclose
        rw [List.length_drop] at hcplen
        have hstopbound : i + mermaidOpen.length + j + fenceClose.length ≤ s.length := by
          have hole : mermaidOpen.length = 11 := rfl
          have hcle : fenceClose.length = 3 := rfl
          omega
        obtain ⟨ihchain, ihmem⟩ :=
          ih (s.drop (i + mermaidOpen.length + j + fenceClose.length))
            (base + (i + mermaidOpen.length + j + fenceClose.length))
        constructor
        · simp only [blocksChained, Bool.and_eq_true, decide_eq_true_eq]
          exact ⟨⟨by omega, by omega⟩, ihchain⟩
        · intro b hb
          cases hb with
          | head =>
            constructor
            · simp only []
              rw [List.length_drop] at ihmem
              omega
            · obtain ⟨u, hu⟩ := isPrefixOf_ex hop
              obtain ⟨v, hv⟩ := isPrefixOf_ex hcp
              have hdropi : base + i - base = i := by omega
              have hlen :
                  base + (i + mermaidOpen.length + j + fenceClose.length) - (base + i) =
                    mermaidOpen.length + (j + fenceClose.length) := by omega
              simp only [hdropi, hlen]
              have hu2 : u = s.drop (i + mermaidOpen.length) := by
                have h6 : (s.drop i).drop mermaidOpen.length =
                    (mermaidOpen ++ u).drop mermaidOpen.length := by rw [hu]
                rw [List.drop_drop, List.drop_append_eq_append_drop,
                  List.drop_eq_nil_of_le (le_refl mermaidOpen.length), Nat.sub_self,
                  List.drop_zero, List.nil_append] at h6
                rw [← h6]
              rw [hu, List.take_append_eq_append_take, List.take_of_length_le (by omega),
                List.append_assoc]
              congr 1
              have hrest : mermaidOpen.length + (j + fenceClose.length) - mermaidOpen.length =
                  j + fenceClose.length := by omega
              rw [hrest, List.take_add]
              congr 1
              · rw [hu2]
              · rw [hu2, hv, List.take_append_eq_append_take,
                  List.take_of_length_le (Nat.le_refl _), Nat.sub_self, List.take_zero,
                  List.append_nil]
          | tail _ hbtail =>
            obtain ⟨hbound, hslice⟩ := ihmem b hbtail
            have hchainhead :
                base + (i + mermaidOpen.length + j + fenceClose.length) ≤ b.start :=
              blocksChained_start_le ihchain b hbtail
            constructor
            · rw [List.length_drop] at hbound
              omega
            · rw [← hslice]
              rw [List.drop_drop]
              congr 2
              omega

/-- Convenience corollaries of the extraction invariant for the whole
buffer (`base = 0`). -/
theorem extract_chained (s : List Char) :
    blocksChained 0 (extract_mermaid_blocks s) = true :=
  (extractAux_spec (s.length + 1) s 0).1

theorem extract_mem (s : List Char) :
    ∀ b ∈ extract_mermaid_blocks s,
      b.stop ≤ s.length ∧
      slice s b.start b.stop = mermaidOpen ++ b.group1 ++ fenceClose := by
  intro b hb
  obtain ⟨h1, h2⟩ := (extractAux_spec (s.length + 1) s 0).2 b hb
  refine ⟨by omega, ?_⟩
  simpa [slice] using h2

/-! ### The per-block replacement loops of the `main` functions -/

/-- One iteration of the replacement loop in the `main` functions of the
build scripts: `resolve` decides, from the running 0-based block index,
what text (if any) replaces the current block.  If it yields a text the
loop splices it at the offset-adjusted span and updates the running offset;
otherwise (the plantuml/mermaid `Failed - keeping placeholder` path) the
buffer and offset are left untouched. -/
def mainLoopStep (resolve : Nat → Option (List Char))
    (acc : List Char × Int × Nat) (b : MermaidBlock) : List Char × Int × Nat :=
  match resolve acc.2.2 with
  | some t =>
    (acc.1.take ((b.start : Int) + acc.2.1).toNat ++ t ++
       acc.1.drop ((b.stop : Int) + acc.2.1).toNat,
     acc.2.1 + ((t.length : Int) - ((b.stop : Int) - (b.start : Int))),
     acc.2.2 + 1)
  | none => (acc.1, acc.2.1, acc.2.2 + 1)

/-- The whole replacement loop over the extracted blocks. -/
def mainLoop (content : List Char) (resolve : Nat → Option (List Char))
    (blocks : List MermaidBlock) : List Char :=
  (blocks.foldl (mainLoopStep resolve) (content, 0, 0)).1

/-- The Replacement list a resolver induces over the enumerated blocks;
skipped blocks contribute no replacement. -/
def resolvedRepls (resolve : Nat → Option (List Char)) :
    Nat → List MermaidBlock → List Replacement
  | _, [] => []
  | i, b :: t =>
    match resolve i with
    | some txt => ⟨b.start, b.stop, txt⟩ :: resolvedRepls resolve (i + 1) t
    | none => resolvedRepls resolve (i + 1) t

theorem chainedB_mono {q p : Nat} {rs : List Replacement}
    (hqp : q ≤ p) (h : chainedB p rs = true) : chainedB q rs = true := by
  cases rs with
  | nil => rfl
  | cons r t =>
    simp only [chainedB, Bool.and_eq_true, decide_eq_true_eq] at h ⊢
    exact ⟨⟨by omega, h.1.2⟩, h.2⟩

theorem resolvedRepls_chained {resolve : Nat → Option (List Char)} :
    ∀ (blocks : List MermaidBlock) (p i : Nat),
      blocksChained p blocks = true →
      chainedB p (resolvedRepls resolve i blocks) = true := by
  intro blocks
  induction blocks with
  | nil => intro p i _; rfl
  | cons b t ih =>
    intro p i hc
    simp only [blocksChained, Bool.and_eq_true, decide_eq_true_eq] at hc
    simp only [resolvedRepls]
    cases resolve i with
    | some txt =>
      simp only [chainedB, Bool.and_eq_true, decide_eq_true_eq]
      exact ⟨⟨hc.1.1, hc.1.2⟩, ih b.stop (i + 1) hc.2⟩
    | none =>
      exact chainedB_mono (by omega : p ≤ b.stop) (ih b.stop (i + 1) hc.2)

theorem resolvedRepls_bounds {resolve : Nat → Option (List Char)} {n : Nat} :
    ∀ (blocks : List MermaidBlock) (i : Nat),
      (∀ b ∈ blocks, b.stop ≤ n) →
      boundsB n (resolvedRepls resolve i blocks) = true := by
  intro blocks
  induction blocks with
  | nil => intro i _; rfl
  | cons b t ih =>
    intro i hb
    simp only [resolvedRepls]
    have hbt : ∀ x ∈ t, x.stop ≤ n := fun x hx => hb x (List.mem_cons_of_mem b hx)
    cases resolve i with
    | some txt =>
      simp only [boundsB, List.all_cons, Bool.and_eq_true, decide_eq_true_eq]
      exact ⟨hb b (List.mem_cons_self b t), by simpa [boundsB] using ih (i + 1) hbt⟩
    | none => exact ih (i + 1) hbt

/-- The per-block loop is the forward offset-tracking splice of the induced
replacement list: a skipped block changes neither the buffer nor the
offset. -/
theorem mainLoop_eq_fwd_loop {resolve : Nat → Option (List Char)} :
    ∀ (blocks : List MermaidBlock) (buf : List Char) (off : Int) (i : Nat),
      (blocks.foldl (mainLoopStep resolve) (buf, off, i)).1 =
        ((resolvedRepls resolve i blocks).foldl spliceFwdStep (buf, off)).1 := by
  intro blocks
  induction blocks with
  | nil => intro buf off i; rfl
  | cons b t ih =>
    intro buf off i
    simp only [List.foldl_cons, mainLoopStep, resolvedRepls]
    cases resolve i with
    | some txt => simp only [List.foldl_cons, spliceFwdStep]; exact ih _ _ _
    | none => exact ih _ _ _

/-- The replacement loop over the blocks extracted from `content` equals
the gap-copy splice of the induced replacement list (shared helper). -/
theorem mainLoop_eq_gap (content : List Char) (resolve : Nat → Option (List Char)) :
    mainLoop content resolve (extract_mermaid_blocks content) =
      spliceGap content
        (resolvedRepls resolve 0 (extract_mermaid_blocks content)) := by
  rw [mainLoop, mainLoop_eq_fwd_loop]
  have hc : chainedB 0 (resolvedRepls resolve 0 (extract_mermaid_blocks content)) = true :=
    resolvedRepls_chained _ 0 0 (extract_chained content)
  have hb : boundsB content.length
      (resolvedRepls resolve 0 (extract_mermaid_blocks content)) = true :=
    resolvedRepls_bounds _ 0 (fun b hb => (extract_mem content b hb).1)
  have := spliceFwd_eq_gap (s := content) hc hb
  simpa [spliceFwd] using this

/-! ### The concrete build variants -/

/-- The literal placeholder text spliced in by `build-paper-plantuml.py`
for blocks beyond the static `DIAGRAMS` table (line 296). -/
def placeholderText : List Char := "[Diagram placeholder]".toList

/-- The image reference `f'![{title}](diagrams/{png_filename}){{width=85%}}'`
spliced in for a successfully rendered diagram (`build-paper-plantuml.py`
line 283), with `png_filename = f'diagram_{diagram_num}.png'`. -/
def imgRefText (title : List Char) (n : Nat) : List Char :=
  "![".toList ++ title ++ "](diagrams/diagram_".toList ++ (Nat.repr n).toList ++
    ".png)\x7bwidth=85%\x7d".toList

/-- Block resolution of `main` in `build-paper-plantuml.py` (lines 269-297),
parameterized by the `title` fields of the static `DIAGRAMS` table and by
the outcome of the external render call (`render_plantuml`, an HTTP
collaborator modelled as a boolean oracle): a block whose index is inside
the table is replaced by the image reference when the render succeeds and
left untouched when it fails; a block beyond the table is replaced by the
literal placeholder text. -/
def plantumlResolve (titles : List (List Char)) (renderOk : Nat → Bool)
    (i : Nat) : Option (List Char) :=
  if i < titles.length then
    (if renderOk i then some (imgRefText (titles.getD i []) (i + 1)) else none)
  else some placeholderText

/-- Block resolution of `main` in `build-paper-ascii.py` (lines 174-189)
and `build-arxiv-package.py` (lines 243-258), parameterized by the static
ASCII `DIAGRAMS` table: a block inside the table is replaced by its table
entry, a block beyond the table by the empty string (deletion). -/
def asciiResolve (table : List (List Char)) (i : Nat) : Option (List Char) :=
  some (if i < table.length then table.getD i [] else [])

/-- The mermaid-replacement stage of `main` in `build-paper-plantuml.py`. -/
def processPlantumlMain (content : List Char) (titles : List (List Char))
    (renderOk : Nat → Bool) : List Char :=
  mainLoop content (plantumlResolve titles renderOk) (extract_mermaid_blocks content)

/-- The mermaid-replacement stage of `main` in `build-paper-ascii.py` and
`build-arxiv-package.py`. -/
def processAsciiMain (content : List Char) (table : List (List Char)) : List Char :=
  mainLoop content (asciiResolve table) (extract_mermaid_blocks content)

/-! ### The PlantUML transport encoding stage -/

/-- The custom 64-symbol alphabet of `plantuml_encode`
(`build-paper-plantuml.py` line 168), rank 0 = `'0'`. -/
def plantumlAlphabet : List Char :=
  "0123456789ABCDEFGHIJKLMNOPQRSTUVWXYZabcdefghijklmnopqrstuvwxyz-_".toList

/-- `alphabet[v]`; an out-of-range rank (which never arises for byte
input) yields `'?'` where Python would raise `IndexError`. -/
def encChar (v : Nat) : Char := plantumlAlphabet.getD v '?'

/-- The symbol-emission loop of `plantuml_encode`
(`build-paper-plantuml.py` lines 170-192) applied to the compressed byte
sequence: a full 3-byte group yields 4 symbols, a trailing 2-byte group 3
symbols, a trailing 1-byte group 2 symbols; no padding symbol exists. -/
def plantuml_encode_bytes : List Nat → List Char
  | b1 :: b2 :: b3 :: rest =>
    encChar (b1 >>> 2) :: encChar (((b1 &&& 0x3) <<< 4) ||| (b2 >>> 4)) ::
      encChar (((b2 &&& 0xF) <<< 2) ||| (b3 >>> 6)) :: encChar (b3 &&& 0x3F) ::
      plantuml_encode_bytes rest
  | [b1, b2] =>
    [encChar (b1 >>> 2), encChar (((b1 &&& 0x3) <<< 4) ||| (b2 >>> 4)),
      encChar ((b2 &&& 0xF) <<< 2)]
  | [b1] => [encChar (b1 >>> 2), encChar ((b1 &&& 0x3) <<< 4)]
  | [] => []

/-- The spec's words for the 2-byte trailing group, taken literally: "the
last 4 bits of the second byte are taken as the low nibble of the 3rd
output symbol's 6-bit value with the remaining 2 bits set to zero" — that
is, the 3rd symbol's 6-bit value is `b2 &&& 0xF` itself (high two bits
zero). -/
def specTail2Literal (b1 b2 : Nat) : List Char :=
  [encChar (b1 >>> 2), encChar (((b1 &&& 0x3) <<< 4) ||| (b2 >>> 4)),
    encChar (b2 &&& 0xF)]

/-- Most-significant-bit-first bits of one byte, each bit 0 or 1. -/
def byteBits (b : Nat) : List Nat :=
  [b / 128 % 2, b / 64 % 2, b / 32 % 2, b / 16 % 2, b / 8 % 2, b / 4 % 2, b / 2 % 2, b % 2]

/-- Regroup a bit stream into 6-bit symbols, zero-filling a final partial
group on the right ("standard 6-bit grouping", no padding symbol). -/
def chunk6 : List Nat → List (List Nat)
  | x1 :: x2 :: x3 :: x4 :: x5 :: x6 :: rest => [x1, x2, x3, x4, x5, x6] :: chunk6 rest
  | [] => []
  | [x1] => [[x1, 0, 0, 0, 0, 0]]
  | [x1, x2] => [[x1, x2, 0, 0, 0, 0]]
  | [x1, x2, x3] => [[x1, x2, x3, 0, 0, 0]]
  | [x1, x2, x3, x4] => [[x1, x2, x3, x4, 0, 0]]
  | [x1, x2, x3, x4, x5] => [[x1, x2, x3, x4, x5, 0]]

/-- The numeric value of a bit group, most significant bit first. -/
def bitsVal (l : List Nat) : Nat := l.foldl (fun a x => 2 * a + x) 0

/-- The spec's reference encoding stage (§4.3 steps 2-3) as the amended
claim states it: emit the input bytes as a most-significant-bit-first bit
stream, regroup into 6-bit symbols zero-filling the final partial group,
and map each 6-bit value through the fixed 64-character alphabet. -/
def spec_encode_bytes (bs : List Nat) : List Char :=
  (chunk6 (bs.map byteBits).flatten).map fun c => encChar (bitsVal c)

/-- Modelled from the spec: §4.3 step 1 calls for a raw DEFLATE stream at
maximum compression with the zlib container framing stripped — the code's
`zlib.compress(text, 9)[2:-4]`, where `zlib` is library code outside this
repository.  On the empty input zlib emits header `78 DA`, a single final
fixed-Huffman block containing only the end-of-block code, i.e. the two
bytes `0x03 0x00`, and the Adler trailer; after `[2:-4]` the compressed
byte sequence is exactly `[0x03, 0x00]`.  (No DEFLATE stream is empty:
every stream carries at least one block header.) -/
def rawDeflateEmpty : List Nat := [0x03, 0x00]

/-- `plantuml_encode('')`: the symbol stage applied to the compressed form
of the empty input. -/
def plantuml_encode_empty : List Char := plantuml_encode_bytes rawDeflateEmpty

/-! ### The boundary-sensitive URL wrapper (`wrap_bare_urls`) -/

/-- Python `\s` whitespace (the ASCII range; the paper buffers here are
ASCII, so the Unicode extension of `\s` never fires). -/
def isPySpace (c : Char) : Bool :=
  c == ' ' || c == '\t' || c == '\n' || c == '\r' || c == '\x0b' || c == '\x0c'

/-- The character class `[^\s<>\)\]\}]` of the URL body. -/
def urlBodyChar (c : Char) : Bool :=
  !(isPySpace c || c == '<' || c == '>' || c == ')' || c == ']' || c == '\x7d')

/-- The three negative lookbehinds of the URL pattern, checked against the
reversed original text before the match position:
`(?<![(\[{"])`, `(?<!\]\()` and `(?<!\\url\{)`. -/
def lookbehindOk (rev : List Char) : Bool :=
  !(decide (rev.head? = some '(') || decide (rev.head? = some '[') ||
      decide (rev.head? = some '\x7b') || decide (rev.head? = some '"')) &&
    !(decide (rev.take 2 = ['(', ']'])) &&
    !(decide (rev.take 5 = ['\x7b', 'l', 'r', 'u', '\\']))

/-- `https?://` — the scheme alternatives with their lengths, longest
first as the regex's greedy optional `s` tries them. -/
def schemeLen (s : List Char) : Option Nat :=
  if ("https://".toList).isPrefixOf s then some 8
  else if ("http://".toList).isPrefixOf s then some 7
  else none

/-- Attempt the URL regex at the current position: all three lookbehinds
must pass, a scheme must follow, and at least one body character must
follow the scheme (`+`).  Returns the matched text and the rest of the
buffer after the match. -/
def tryMatchUrl (rev s : List Char) : Option (List Char × List Char) :=
  if lookbehindOk rev then
    match schemeLen s with
    | some k =>
      if ((s.drop k).takeWhile urlBodyChar).isEmpty then none
      else some (s.take k ++ (s.drop k).takeWhile urlBodyChar,
        (s.drop k).dropWhile urlBodyChar)
    | none => none
  else none

/-- The trailing-punctuation set trimmed by `replace_url`. -/
def urlTrailPunct (c : Char) : Bool :=
  c == '.' || c == ',' || c == ';' || c == ':' || c == '!' || c == '?' || c == ')'

/-- `replace_url` of the build scripts: peel trailing punctuation off the
match, wrap the remainder in `\url{...}` and re-append the peeled tail
outside the marker. -/
def replace_url (m : List Char) : List Char :=
  "\\url\x7b".toList ++ (m.reverse.dropWhile urlTrailPunct).reverse ++
    ['\x7d'] ++ (m.reverse.takeWhile urlTrailPunct).reverse

/-- The `re.sub` scan of `wrap_bare_urls`: try the pattern at every
position of the original buffer left to right; on a match emit the
substitution and resume after the matched text (whose characters still
feed the lookbehinds of later positions); otherwise copy one character.
`fuel` only bounds the recursion — every step consumes at least one input
character, so `s.length + 1` fuel is never exhausted. -/
def wrapAux : Nat → List Char → List Char → List Char
  | 0, _, s => s
  | fuel + 1, rev, s =>
    match s with
    | [] => []
    | c :: rest =>
      match tryMatchUrl rev (c :: rest) with
      | some (m, rem) => replace_url m ++ wrapAux fuel (m.reverse ++ rev) rem
      | none => c :: wrapAux fuel (c :: rev) rest

/-- `wrap_bare_urls` of `build-paper-ascii.py` (lines 128-143; identical in
the three other build scripts that define it). -/
def wrap_bare_urls (s : List Char) : List Char := wrapAux (s.length + 1) [] s

/-! ### The front-matter stripper (`preprocess_content`) -/

/-- Anchor of `re.sub(r'^# DANEEL:.*?\n', '', content)`. -/
def titleAnchor : List Char := "# DANEEL:".toList

/-- Anchor of `re.sub(r'^\*\*Luis Cezar.*?---\n', '', content, DOTALL)`. -/
def authorAnchor : List Char := "**Luis Cezar".toList

/-- The horizontal-rule terminator `---\n` of the author-block pattern. -/
def hrMark : List Char := "---\n".toList

/-- Anchor of `re.sub(r'^## Abstract\n\n.*?(?=\n##|\Z)', '', content,
DOTALL | MULTILINE)`. -/
def absAnchor : List Char := "## Abstract\n\n".toList

/-- The lookahead terminator `\n##` of the abstract pattern. -/
def nlHH : List Char := "\n##".toList

/-- Title-line removal: without MULTILINE the `^` anchors to the buffer
start only, and without DOTALL the lazy `.*?` cannot cross a newline, so
the match runs to the first newline (if any). -/
def stripTitleLine (s : List Char) : List Char :=
  if titleAnchor.isPrefixOf s then
    match findSubstr ['\n'] (s.drop titleAnchor.length) with
    | some j => s.drop (titleAnchor.length + j + 1)
    | none => s
  else s

/-- Author-block removal: anchored to the buffer start (single-shot — `^`
without MULTILINE can only match at position 0), running to the end of the
first occurrence of `---\n` (lazy `.*?` with DOTALL). -/
def stripAuthorBlock (s : List Char) : List Char :=
  if authorAnchor.isPrefixOf s then
    match findSubstr hrMark (s.drop authorAnchor.length) with
    | some j => s.drop (authorAnchor.length + j + hrMark.length)
    | none => s
  else s

/-- With MULTILINE, `^` matches at the buffer start and right after any
newline. -/
def atLineStart : Option Char → Bool
  | none => true
  | some c => c == '\n'

/-- The `re.sub` scan of the abstract pattern: at every line-start position
where `## Abstract\n\n` matches, delete through to the first following
`\n##` (the lookahead, not consumed) or to the end of the buffer (`\Z`),
and continue scanning at the match end.  `prev` is the original character
before the current position (for the MULTILINE `^`).  `fuel` only bounds
the recursion; every step consumes at least one character, so
`s.length + 1` fuel is never exhausted. -/
def stripAbstractGo : Nat → Option Char → List Char → List Char
  | 0, _, s => s
  | fuel + 1, prev, s =>
    if atLineStart prev && absAnchor.isPrefixOf s then
      match findSubstr nlHH (s.drop absAnchor.length) with
      | some j =>
        stripAbstractGo fuel ((s.take (absAnchor.length + j)).getLast?)
          (s.drop (absAnchor.length + j))
      | none => []
    else
      match s with
      | [] => []
      | c :: rest => c :: stripAbstractGo fuel (some c) rest

/-- Abstract-section removal of `preprocess_content`
(`build-paper-ascii.py` line 153). -/
def stripAbstract (s : List Char) : List Char :=
  stripAbstractGo (s.length + 1) none s

/-- Whether the abstract anchor matches anywhere at a line start (given
the character preceding the scan window). -/
def hasAbstractAnchorGo : Option Char → List Char → Bool
  | _, [] => false
  | prev, c :: rest =>
    (atLineStart prev && absAnchor.isPrefixOf (c :: rest)) ||
      hasAbstractAnchorGo (some c) rest

/-- Whether the abstract anchor matches anywhere in the buffer. -/
def hasAbstractAnchor (s : List Char) : Bool := hasAbstractAnchorGo none s

/-- `preprocess_content` of `build-paper-ascii.py` (lines 146-156): strip
the title line, the author block and the abstract section, then wrap bare
URLs. -/
def preprocess_content (s : List Char) : List Char :=
  wrap_bare_urls (stripAbstract (stripAuthorBlock (stripTitleLine s)))

/-! ### Bit-level arithmetic bridging the code's operators and the spec's
6-bit regrouping -/

theorem or_mul_pow_add {k : Nat} :
    ∀ {a b : Nat}, b < 2 ^ k → (a * 2 ^ k) ||| b = a * 2 ^ k + b := by
  induction k with
  | zero =>
    intro a b hb
    interval_cases b
    simp
  | succ k ih =>
    intro a b hb
    have hp : (2 : Nat) ^ (k + 1) = 2 ^ k * 2 := pow_succ 2 k
    have h2 : a * 2 ^ (k + 1) = 2 * (a * 2 ^ k) := by rw [hp]; ring
    have hb2 : b / 2 < 2 ^ k := by omega
    have hx : (a * 2 ^ (k + 1)) % 2 = 0 := by omega
    have hdiv : (a * 2 ^ (k + 1)) ||| b =
        2 * (((a * 2 ^ (k + 1)) ||| b) / 2) + ((a * 2 ^ (k + 1)) ||| b) % 2 :=
      (Nat.div_add_mod _ 2).symm
    rw [Nat.or_div_two] at hdiv
    have hq : (a * 2 ^ (k + 1)) / 2 = a * 2 ^ k := by omega
    rw [hq] at hdiv
    have hmod : ((a * 2 ^ (k + 1)) ||| b) % 2 = b % 2 := by
      have hiff := Nat.or_mod_two_eq_one (a := a * 2 ^ (k + 1)) (b := b)
      rcases Nat.mod_two_eq_zero_or_one b with hb' | hb'
      · have hno : ¬(((a * 2 ^ (k + 1)) ||| b) % 2 = 1) := by
          intro hcon
          rcases hiff.mp hcon with h' | h'
          · omega
          · omega
        omega
      · have := hiff.mpr (Or.inr hb')
        omega
    rw [hmod, ih hb2] at hdiv
    omega

theorem or_shift_add {a b k : Nat} (hb : b < 2 ^ k) :
    (a <<< k) ||| b = a * 2 ^ k + b := by
  rw [Nat.shiftLeft_eq]
  exact or_mul_pow_add hb

theorem and_three (n : Nat) : n &&& 0x3 = n % 4 := by
  rw [show (0x3 : Nat) = 2 ^ 2 - 1 by norm_num, Nat.and_pow_two_sub_one_eq_mod]

theorem and_fifteen (n : Nat) : n &&& 0xF = n % 16 := by
  rw [show (0xF : Nat) = 2 ^ 4 - 1 by norm_num, Nat.and_pow_two_sub_one_eq_mod]

theorem and_sixtythree (n : Nat) : n &&& 0x3F = n % 64 := by
  rw [show (0x3F : Nat) = 2 ^ 6 - 1 by norm_num, Nat.and_pow_two_sub_one_eq_mod]

theorem shr_two (n : Nat) : n >>> 2 = n / 4 := by
  rw [Nat.shiftRight_eq_div_pow]

theorem shr_four (n : Nat) : n >>> 4 = n / 16 := by
  rw [Nat.shiftRight_eq_div_pow]

theorem shr_six (n : Nat) : n >>> 6 = n / 64 := by
  rw [Nat.shiftRight_eq_div_pow]

/-- Symbol 2 of a group: low 2 bits of byte 1, high 4 bits of byte 2. -/
theorem sym_two {b1 b2 : Nat} (h2 : b2 < 256) :
    ((b1 &&& 0x3) <<< 4) ||| (b2 >>> 4) = (b1 % 4) * 16 + b2 / 16 := by
  rw [and_three, shr_four]
  have hlt : b2 / 16 < 2 ^ 4 := by norm_num; omega
  have h0 := or_shift_add (a := b1 % 4) (b := b2 / 16) (k := 4) hlt
  simpa using h0

/-- Symbol 3 of a full group: low 4 bits of byte 2, high 2 bits of byte 3. -/
theorem sym_three {b2 b3 : Nat} (h3 : b3 < 256) :
    ((b2 &&& 0xF) <<< 2) ||| (b3 >>> 6) = (b2 % 16) * 4 + b3 / 64 := by
  rw [and_fifteen, shr_six]
  have hlt : b3 / 64 < 2 ^ 2 := by norm_num; omega
  have h0 := or_shift_add (a := b2 % 16) (b := b3 / 64) (k := 2) hlt
  simpa using h0

theorem shl_four (n : Nat) : n <<< 4 = n * 16 := by
  rw [Nat.shiftLeft_eq]

theorem shl_two (n : Nat) : n <<< 2 = n * 4 := by
  rw [Nat.shiftLeft_eq]

theorem bitsVal6 (a b c d e f : Nat) :
    bitsVal [a, b, c, d, e, f] = 32 * a + 16 * b + 8 * c + 4 * d + 2 * e + f := by
  simp [bitsVal, List.foldl]
  ring

/-- The code's symbol-emission loop equals the spec's 6-bit regrouping of
the byte stream, for byte-valued input (shared helper for C1). -/
theorem encode_bytes_eq_spec :
    ∀ (bs : List Nat), (∀ b ∈ bs, b < 256) →
      plantuml_encode_bytes bs = spec_encode_bytes bs := by
  have H : ∀ (n : Nat) (bs : List Nat), bs.length ≤ n → (∀ b ∈ bs, b < 256) →
      plantuml_encode_bytes bs = spec_encode_bytes bs := by
    intro n
    induction n with
    | zero =>
      intro bs hlen _
      have : bs = [] := List.eq_nil_of_length_eq_zero (by omega)
      subst this
      rfl
    | succ n ih =>
      intro bs hlen hb
      match bs with
      | [] => rfl
      | [b1] =>
        have h1 : b1 < 256 := hb b1 (by simp)
        simp only [plantuml_encode_bytes, spec_encode_bytes, byteBits,
          List.map_cons, List.map_nil, List.flatten_cons, List.flatten_nil,
          List.append_nil, chunk6, List.cons_append, List.nil_append,
          bitsVal6, List.cons.injEq, and_true]
        rw [shr_two, and_three, shl_four]
        exact ⟨congrArg encChar (by omega), congrArg encChar (by omega)⟩
      | [b1, b2] =>
        have h1 : b1 < 256 := hb b1 (by simp)
        have h2 : b2 < 256 := hb b2 (by simp)
        simp only [plantuml_encode_bytes, spec_encode_bytes, byteBits,
          List.map_cons, List.map_nil, List.flatten_cons, List.flatten_nil,
          List.append_nil, chunk6, List.cons_append, List.nil_append,
          bitsVal6, List.cons.injEq, and_true]
        rw [shr_two, and_fifteen, shl_two, sym_two h2]
        exact ⟨congrArg encChar (by omega), congrArg encChar (by omega),
          congrArg encChar (by omega)⟩
      | b1 :: b2 :: b3 :: rest =>
        have h1 : b1 < 256 := hb b1 (by simp)
        have h2 : b2 < 256 := hb b2 (by simp)
        have h3 : b3 < 256 := hb b3 (by simp)
        have hrest : ∀ b ∈ rest, b < 256 := fun b hbr =>
          hb b (by simp [hbr])
        have hlen' : rest.length ≤ n := by
          simp only [List.length_cons] at hlen
          omega
        have ihr := ih rest hlen' hrest
        simp only [plantuml_encode_bytes, spec_encode_bytes, byteBits,
          List.map_cons, List.flatten_cons, chunk6, List.cons_append,
          List.nil_append, bitsVal6, List.cons.injEq, List.map_cons] at ihr ⊢
        rw [shr_two, sym_two h2, sym_three h3, and_sixtythree]
        exact ⟨congrArg encChar (by omega), congrArg encChar (by omega),
          congrArg encChar (by omega), congrArg encChar (by omega), ihr⟩
  intro bs hb
  exact H bs.length bs (le_refl _) hb

/-- Every symbol the loop emits for byte input is a character of the
64-symbol alphabet (shared helper for C1). -/
theorem encode_bytes_mem_alphabet :
    ∀ (bs : List Nat), (∀ b ∈ bs, b < 256) →
      ∀ c ∈ plantuml_encode_bytes bs, c ∈ plantumlAlphabet := by
  have hmem : ∀ v, v < 64 → encChar v ∈ plantumlAlphabet := by
    have hall : ∀ v' < 64, encChar v' ∈ plantumlAlphabet := by decide
    exact fun v hv => hall v hv
  have H : ∀ (n : Nat) (bs : List Nat), bs.length ≤ n → (∀ b ∈ bs, b < 256) →
      ∀ c ∈ plantuml_encode_bytes bs, c ∈ plantumlAlphabet := by
    intro n
    induction n with
    | zero =>
      intro bs hl _
      have : bs = [] := List.eq_nil_of_length_eq_zero (by omega)
      subst this
      intro c hc
      cases hc
    | succ n ih =>
      intro bs hl hb
      match bs with
      | [] => intro c hc; cases hc
      | [b1] =>
        have h1 : b1 < 256 := hb b1 (by simp)
        intro c hc
        simp only [plantuml_encode_bytes, List.mem_cons, List.mem_singleton,
          List.not_mem_nil, or_false] at hc
        rcases hc with rfl | rfl
        · exact hmem _ (by rw [shr_two]; omega)
        · exact hmem _ (by rw [and_three, shl_four]; omega)
      | [b1, b2] =>
        have h1 : b1 < 256 := hb b1 (by simp)
        have h2 : b2 < 256 := hb b2 (by simp)
        intro c hc
        simp only [plantuml_encode_bytes, List.mem_cons, List.mem_singleton,
          List.not_mem_nil, or_false] at hc
        rcases hc with rfl | rfl | rfl
        · exact hmem _ (by rw [shr_two]; omega)
        · exact hmem _ (by rw [sym_two h2]; omega)
        · exact hmem _ (by rw [and_fifteen, shl_two]; omega)
      | b1 :: b2 :: b3 :: rest =>
        have h1 : b1 < 256 := hb b1 (by simp)
        have h2 : b2 < 256 := hb b2 (by simp)
        have h3 : b3 < 256 := hb b3 (by simp)
        have hrest : ∀ b ∈ rest, b < 256 := fun b hbr => hb b (by simp [hbr])
        have hl' : rest.length ≤ n := by
          simp only [List.length_cons] at hl
          omega
        intro c hc
        simp only [plantuml_encode_bytes, List.mem_cons] at hc
        rcases hc with rfl | rfl | rfl | rfl | hc
        · exact hmem _ (by rw [shr_two]; omega)
        · exact hmem _ (by rw [sym_two h2]; omega)
        · exact hmem _ (by rw [sym_three h3]; omega)
        · exact hmem _ (by rw [and_sixtythree]; omega)
        · exact ih rest hl' hrest c hc
  intro bs hb
  exact H bs.length bs (le_refl _) hb

/-! ### Supporting lemmas for the claims -/

/-- The identity replacement of a block: `newText` is the block's raw
matched text (Python `match.group(0)`), which by `extract_mem` equals the
buffer slice at the block's span. -/
def identityReplacement (b : MermaidBlock) : Replacement :=
  ⟨b.start, b.stop, mermaidOpen ++ b.group1 ++ fenceClose⟩

theorem chainedB_map_ident :
    ∀ (bs : List MermaidBlock) (p : Nat), blocksChained p bs = true →
      chainedB p (bs.map identityReplacement) = true := by
  intro bs
  induction bs with
  | nil => intro p _; rfl
  | cons b t ih =>
    intro p h
    simp only [blocksChained, Bool.and_eq_true, decide_eq_true_eq] at h
    simp only [List.map_cons, chainedB, identityReplacement, Bool.and_eq_true,
      decide_eq_true_eq]
    exact ⟨⟨h.1.1, h.1.2⟩, ih b.stop h.2⟩

/-- Identity lemma for the abstract scan: if the anchor matches nowhere at
a line start, the scan copies the buffer unchanged. -/
theorem stripAbstractGo_id :
    ∀ (fuel : Nat) (prev : Option Char) (s : List Char),
      s.length ≤ fuel → hasAbstractAnchorGo prev s = false →
      stripAbstractGo fuel prev s = s := by
  intro fuel
  induction fuel with
  | zero => intro prev s _ _; rfl
  | succ fuel ih =>
    intro prev s hlen hno
    cases s with
    | nil =>
      have hpre : absAnchor.isPrefixOf ([] : List Char) = false := rfl
      simp [stripAbstractGo, hpre]
    | cons c rest =>
      simp only [hasAbstractAnchorGo, Bool.or_eq_false_iff] at hno
      simp only [stripAbstractGo, hno.1, Bool.false_eq_true, if_false]
      have := ih (some c) rest (by simp only [List.length_cons] at hlen; omega) hno.2
      rw [this]

/-! ## The claims -/

/-- C1, counterexample.  The spec's reference definition of the encoding
stage says, for a trailing group of exactly 2 bytes, that the second
byte's last 4 bits become the LOW nibble of the 3rd symbol's 6-bit value
with the remaining 2 bits zero (`specTail2Literal`); the code instead puts
that nibble in the HIGH four bits (`(b2 & 0xF) << 2`).  On the compressed
byte sequence `[0, 1]` the code emits `"004"` while the spec's reference
emits `"001"`. -/
theorem encode_stage_tail2_cex :
    plantuml_encode_bytes [0, 1] = ['0', '0', '4'] ∧
    specTail2Literal 0 1 = ['0', '0', '1'] ∧
    plantuml_encode_bytes [0, 1] ≠ specTail2Literal 0 1 := by
  decide

/-- C1 (as amended): for every byte sequence, the encoding stage of
`plantuml_encode` equals the spec's reference 6-bit regrouping with the
final-group zero-fill placed in the LOW bits of the last symbol (standard
base64 bit layout: a 2-byte tail puts the second byte's last 4 bits in the
HIGH four bits of the 3rd symbol's value, a 1-byte tail zero-fills the low
bits of its 2nd symbol), every symbol is the alphabet character at the
6-bit value's rank, and no padding symbol is ever emitted (the output is
drawn entirely from the 64-character alphabet). -/
theorem encode_stage_eq_spec_grouping (bs : List Nat) (h : ∀ b ∈ bs, b < 256) :
    plantuml_encode_bytes bs = spec_encode_bytes bs ∧
    ∀ c ∈ plantuml_encode_bytes bs, c ∈ plantumlAlphabet :=
  ⟨encode_bytes_eq_spec bs h, encode_bytes_mem_alphabet bs h⟩

/-- C1, witness at the byte sequence `[77, 200, 3, 9]`. -/
theorem encode_stage_eq_spec_grouping_witness :
    (∀ b ∈ [77, 200, 3, 9], b < 256) ∧
    (plantuml_encode_bytes [77, 200, 3, 9] = spec_encode_bytes [77, 200, 3, 9] ∧
      ∀ c ∈ plantuml_encode_bytes [77, 200, 3, 9], c ∈ plantumlAlphabet) :=
  ⟨by decide, encode_stage_eq_spec_grouping [77, 200, 3, 9] (by decide)⟩

/-- C2: splicing the identity replacements of all extracted blocks (each
block's `newText` equal to its raw content, the buffer text at its span)
through the build scripts' forward splice loop reproduces the original
buffer byte-exactly, and splicing an empty Replacement list returns the
buffer unchanged — for every buffer. -/
theorem splice_identity_roundtrip :
    ∀ s : List Char,
      spliceFwd s ((extract_mermaid_blocks s).map identityReplacement) = s ∧
      spliceFwd s [] = s := by
  intro s
  refine ⟨?_, rfl⟩
  have hc : chainedB 0 ((extract_mermaid_blocks s).map identityReplacement) = true :=
    chainedB_map_ident _ 0 (extract_chained s)
  have hmem : ∀ r ∈ (extract_mermaid_blocks s).map identityReplacement,
      r.stop ≤ s.length ∧ r.newText = slice s r.start r.stop := by
    intro r hr
    simp only [List.mem_map] at hr
    obtain ⟨b, hb', rfl⟩ := hr
    obtain ⟨h1, h2⟩ := extract_mem s b hb'
    exact ⟨h1, h2.symm⟩
  have hb : boundsB s.length ((extract_mermaid_blocks s).map identityReplacement) = true := by
    simp only [boundsB, List.all_eq_true, decide_eq_true_eq]
    exact fun r hr => (hmem r hr).1
  rw [spliceFwd_eq_gap hc hb, spliceGap,
    spliceGapAux_ident s ((extract_mermaid_blocks s).map identityReplacement) 0 hc hmem]
  rfl

/-- C3: on every ascending, non-overlapping, in-bounds replacement list,
the forward offset-accumulating edit strategy and the backward end-to-start
strategy both produce exactly the single-pass gap-copy splice, and the
output length is the input length plus the sum of the `lengthDelta`s. -/
theorem splice_strategies_equiv (s : List Char) (rs : List Replacement)
    (hc : chainedB 0 rs = true) (hb : boundsB s.length rs = true) :
    spliceFwd s rs = spliceGap s rs ∧
    spliceBwd s rs = spliceGap s rs ∧
    ((spliceGap s rs).length : Int) =
      (s.length : Int) + (rs.map Replacement.lengthDelta).sum := by
  refine ⟨spliceFwd_eq_gap hc hb, spliceBwd_eq_gap hc hb, ?_⟩
  have := spliceGapAux_length s rs 0 hc hb (Nat.zero_le _)
  simpa [spliceGap] using this

/-- C3, witness on a concrete buffer and two replacements with nonzero
length deltas. -/
theorem splice_strategies_equiv_witness :
    (chainedB 0 [⟨1, 3, ['Z']⟩, ⟨5, 5, ['!', '!', '!']⟩] = true) ∧
    (boundsB ("hello world".toList).length [⟨1, 3, ['Z']⟩, ⟨5, 5, ['!', '!', '!']⟩] = true) ∧
    (spliceFwd ("hello world".toList) [⟨1, 3, ['Z']⟩, ⟨5, 5, ['!', '!', '!']⟩] =
        spliceGap ("hello world".toList) [⟨1, 3, ['Z']⟩, ⟨5, 5, ['!', '!', '!']⟩] ∧
      spliceBwd ("hello world".toList) [⟨1, 3, ['Z']⟩, ⟨5, 5, ['!', '!', '!']⟩] =
        spliceGap ("hello world".toList) [⟨1, 3, ['Z']⟩, ⟨5, 5, ['!', '!', '!']⟩] ∧
      (((spliceGap ("hello world".toList) [⟨1, 3, ['Z']⟩, ⟨5, 5, ['!', '!', '!']⟩]).length : Int) =
        (("hello world".toList).length : Int) +
          (([⟨1, 3, ['Z']⟩, ⟨5, 5, ['!', '!', '!']⟩] : List Replacement).map
            Replacement.lengthDelta).sum)) :=
  ⟨by decide, by decide,
    splice_strategies_equiv ("hello world".toList) _ (by decide) (by decide)⟩

/-- C4, counterexample.  The claim says `encode` of the empty input yields
an empty token; but the compression stage never yields an empty byte
sequence (raw DEFLATE of the empty input is the two bytes `0x03 0x00`, see
`rawDeflateEmpty`), so the emitted token is nonempty. -/
theorem plantuml_encode_empty_cex : plantuml_encode_empty ≠ [] := by
  decide

/-- C4 (as amended): `encode` of the empty input raises no error and
returns the fixed nonempty three-symbol token `"0m0"`, the alphabet
encoding of the two-byte raw-DEFLATE stream of the empty input. -/
theorem plantuml_encode_empty_value : plantuml_encode_empty = ['0', 'm', '0'] := by
  decide

/-- C5, counterexample.  A buffer holding one closed block followed by an
opener with no closer: extraction does not fail — it silently returns the
partial one-block list and drops the dangling opener. -/
theorem extract_partial_cex :
    extract_mermaid_blocks ("```mermaid\nA\n``````mermaid\nB".toList) =
      [⟨0, 16, ['A', '\n']⟩] ∧
    findSubstr mermaidOpen (("```mermaid\nA\n``````mermaid\nB".toList).drop 16) =
      some 0 := by
  decide

/-- C5 (as amended): extraction never fails; an opener marker with no
matching closer after it contributes no block — in particular a buffer
whose first opener is unclosed extracts to the empty list (and closed
blocks before a dangling opener are still returned, see the
counterexample). -/
theorem extract_unclosed_head (s : List Char) (i : Nat)
    (h1 : findSubstr mermaidOpen s = some i)
    (h2 : findSubstr fenceClose (s.drop (i + mermaidOpen.length)) = none) :
    extract_mermaid_blocks s = [] := by
  simp [extract_mermaid_blocks, extractAux, h1, h2]

/-- C5, witness: a lone unclosed opener. -/
theorem extract_unclosed_head_witness :
    findSubstr mermaidOpen ("```mermaid\nB".toList) = some 0 ∧
    findSubstr fenceClose (("```mermaid\nB".toList).drop (0 + mermaidOpen.length)) =
      none ∧
    extract_mermaid_blocks ("```mermaid\nB".toList) = [] :=
  ⟨by decide, by decide, extract_unclosed_head _ 0 (by decide) (by decide)⟩

/-- C6, counterexample.  The splice loop performs no ordering check: fed a
descending replacement list it silently returns a buffer (no failure), and
that buffer is corrupted — it differs from the gap-copy splice of the same
replacements in ascending order. -/
theorem splice_unsorted_cex :
    chainedB 0 [⟨2, 3, ['Z', 'W']⟩, ⟨0, 1, ['X']⟩] = false ∧
    spliceFwd ("abcdef".toList) [⟨2, 3, ['Z', 'W']⟩, ⟨0, 1, ['X']⟩] =
      "aXZWdef".toList ∧
    spliceFwd ("abcdef".toList) [⟨2, 3, ['Z', 'W']⟩, ⟨0, 1, ['X']⟩] ≠
      spliceGap ("abcdef".toList) [⟨0, 1, ['X']⟩, ⟨2, 3, ['Z', 'W']⟩] := by
  decide

/-- C6 (as amended): the splice engine checks no precondition — any list
is processed to completion and a buffer returned (silently corrupted when
the list is out of order, see the counterexample); only for ascending,
non-overlapping, in-bounds lists is the result the specified gap-copy
splice. -/
theorem splice_sorted_unchecked (s : List Char) (rs : List Replacement)
    (hc : chainedB 0 rs = true) (hb : boundsB s.length rs = true) :
    spliceFwd s rs = spliceGap s rs :=
  spliceFwd_eq_gap hc hb

/-- C6, witness. -/
theorem splice_sorted_unchecked_witness :
    (chainedB 0 [⟨0, 1, ['X']⟩, ⟨2, 3, ['Z', 'W']⟩] = true) ∧
    (boundsB ("abcdef".toList).length [⟨0, 1, ['X']⟩, ⟨2, 3, ['Z', 'W']⟩] = true) ∧
    spliceFwd ("abcdef".toList) [⟨0, 1, ['X']⟩, ⟨2, 3, ['Z', 'W']⟩] =
      spliceGap ("abcdef".toList) [⟨0, 1, ['X']⟩, ⟨2, 3, ['Z', 'W']⟩] :=
  ⟨by decide, by decide,
    splice_sorted_unchecked ("abcdef".toList) _ (by decide) (by decide)⟩

/-- C7, counterexample.  Two diagrams, the render call failing for the
first and succeeding for the second: the pipeline substitutes nothing for
the failed diagram — its raw mermaid block (opener included) survives
verbatim in the output, and no placeholder text appears anywhere. -/
theorem render_fail_keeps_block_cex :
    processPlantumlMain ("A\n```mermaid\nx\n```\nB\n```mermaid\ny\n```\nC".toList)
        ["T1".toList, "T2".toList] (fun i => i != 0) =
      "A\n```mermaid\nx\n```\nB\n![T2](diagrams/diagram_2.png)\x7bwidth=85%\x7d\nC".toList ∧
    (findSubstr mermaidOpen
        (processPlantumlMain ("A\n```mermaid\nx\n```\nB\n```mermaid\ny\n```\nC".toList)
          ["T1".toList, "T2".toList] (fun i => i != 0))).isSome = true ∧
    findSubstr placeholderText
        (processPlantumlMain ("A\n```mermaid\nx\n```\nB\n```mermaid\ny\n```\nC".toList)
          ["T1".toList, "T2".toList] (fun i => i != 0)) = none := by
  decide

/-- C7 (as amended): for every buffer, diagram table and render outcome,
the pipeline runs to completion (never aborts the document) and equals the
gap-copy splice of the induced replacement list, in which a render failure
contributes no replacement (the block stays) while every other diagram's
replacement lands at its correct position. -/
theorem process_render_outcome_eq_gap (content : List Char)
    (titles : List (List Char)) (renderOk : Nat → Bool) :
    processPlantumlMain content titles renderOk =
      spliceGap content
        (resolvedRepls (plantumlResolve titles renderOk) 0
          (extract_mermaid_blocks content)) :=
  mainLoop_eq_gap content _

/-- C8, counterexample.  `## Abstract` followed by body text and an H3
heading: the spec says deletion runs to the next heading of equal or
higher level — there is none (`###` is lower), so the whole rest of the
document should go and the result be empty.  The code's lookahead `\n##`
instead stops at the H3 line, leaving `"\n### S\nY"`. -/
theorem strip_abstract_h3_cex :
    stripAbstract ("## Abstract\n\nX\n### S\nY".toList) = "\n### S\nY".toList ∧
    stripAbstract ("## Abstract\n\nX\n### S\nY".toList) ≠ [] := by
  decide

/-- C8 (as amended): front-matter stripping is a no-op when an anchor does
not match (abstract anchor absent at every line start, or author anchor
absent at the buffer head), without error; the author-block anchor is
single-shot and removes exactly the span from the buffer head through the
FIRST `---\n` terminator (none earlier exists); and the abstract section,
anchored at the buffer head, is deleted from its heading through to the
next line beginning with `##` — which includes lower-level `###` headings
and excludes top-level `#` headings — or to the end of the document. -/
theorem strip_front_matter_ok :
    ∀ s : List Char,
      (hasAbstractAnchor s = false → stripAbstract s = s) ∧
      (authorAnchor.isPrefixOf s = false → stripAuthorBlock s = s) ∧
      (∀ j : Nat, authorAnchor.isPrefixOf s = true →
        findSubstr hrMark (s.drop authorAnchor.length) = some j →
        stripAuthorBlock s = s.drop (authorAnchor.length + j + hrMark.length) ∧
        ∀ k, k < j → hrMark.isPrefixOf ((s.drop authorAnchor.length).drop k) = false) ∧
      (∀ j : Nat, absAnchor.isPrefixOf s = true →
        findSubstr nlHH (s.drop absAnchor.length) = some j →
        hasAbstractAnchorGo ((s.take (absAnchor.length + j)).getLast?)
            (s.drop (absAnchor.length + j)) = false →
        stripAbstract s = s.drop (absAnchor.length + j)) := by
  intro s
  refine ⟨?_, ?_, ?_, ?_⟩
  · intro hno
    exact stripAbstractGo_id (s.length + 1) none s (by omega) hno
  · intro hno
    simp [stripAuthorBlock, hno]
  · intro j hpre hfind
    constructor
    · simp [stripAuthorBlock, hpre, hfind]
    · exact fun k hk => findSubstr_min hfind k hk
  · intro j hpre hfind hafter
    have h0 : stripAbstract s =
        stripAbstractGo (s.length) ((s.take (absAnchor.length + j)).getLast?)
          (s.drop (absAnchor.length + j)) := by
      simp [stripAbstract, stripAbstractGo, atLineStart, hpre, hfind]
    rw [h0]
    exact stripAbstractGo_id s.length _ _
      (by simp only [List.length_drop]; omega) hafter

/-- C8, witness: an author block trimmed at its first `---\n`, an abstract
section trimmed at the following `\n##`, and a no-op on an anchor-free
buffer. -/
theorem strip_front_matter_ok_witness :
    (authorAnchor.isPrefixOf ("**Luis Cezar q\n---\nrest---\n".toList) = true ∧
      findSubstr hrMark (("**Luis Cezar q\n---\nrest---\n".toList).drop
        authorAnchor.length) = some 3 ∧
      stripAuthorBlock ("**Luis Cezar q\n---\nrest---\n".toList) =
        ("**Luis Cezar q\n---\nrest---\n".toList).drop
          (authorAnchor.length + 3 + hrMark.length)) ∧
    (absAnchor.isPrefixOf ("## Abstract\n\nXY\n## N".toList) = true ∧
      stripAbstract ("## Abstract\n\nXY\n## N".toList) =
        ("## Abstract\n\nXY\n## N".toList).drop (absAnchor.length + 2)) ∧
    (hasAbstractAnchor ("hello\nworld".toList) = false ∧
      stripAbstract ("hello\nworld".toList) = "hello\nworld".toList) := by
  refine ⟨⟨by decide, by decide, ?_⟩, ⟨by decide, ?_⟩, ⟨by decide, ?_⟩⟩
  · exact ((strip_front_matter_ok ("**Luis Cezar q\n---\nrest---\n".toList)).2.2.1 3
      (by decide) (by decide)).1
  · exact (strip_front_matter_ok ("## Abstract\n\nXY\n## N".toList)).2.2.2 2
      (by decide) (by decide) (by decide)
  · exact (strip_front_matter_ok ("hello\nworld".toList)).1 (by decide)

/-- C9, counterexample.  Idempotence of the URL wrapper fails: a bare URL
whose query string embeds a second scheme substring is wrapped whole on the
first pass, but a second pass wraps the embedded URL again (the lookbehind
only protects a URL at the position right after `\url{`). -/
theorem wrap_not_idempotent_cex :
    wrap_bare_urls ("x https://a.com/?q=http://b.co y".toList) =
      "x \\url\x7bhttps://a.com/?q=http://b.co\x7d y".toList ∧
    wrap_bare_urls (wrap_bare_urls ("x https://a.com/?q=http://b.co y".toList)) =
      "x \\url\x7bhttps://a.com/?q=\\url\x7bhttp://b.co\x7d\x7d y".toList ∧
    wrap_bare_urls (wrap_bare_urls ("x https://a.com/?q=http://b.co y".toList)) ≠
      wrap_bare_urls ("x https://a.com/?q=http://b.co y".toList) := by
  decide

/-- C9 (as amended): the wrapper never re-wraps at the position of a URL
immediately preceded by the wrap marker `\url{` (the lookbehind yields no
match there), and re-application is the identity on a buffer whose wrapped
URL embeds no second scheme substring; full idempotence fails in general
(see the counterexample). -/
theorem wrap_no_rewrap_at_marker :
    (∀ rev s : List Char, rev.take 5 = ['\x7b', 'l', 'r', 'u', '\\'] →
      tryMatchUrl rev s = none) ∧
    wrap_bare_urls (wrap_bare_urls ("see https://example.com/page now".toList)) =
      wrap_bare_urls ("see https://example.com/page now".toList) := by
  constructor
  · intro rev s h
    simp [tryMatchUrl, lookbehindOk, h]
  · decide

/-- C9, witness: the scan position right after a literal `\url{`. -/
theorem wrap_no_rewrap_at_marker_witness :
    (("x\\url\x7b".toList).reverse.take 5 = ['\x7b', 'l', 'r', 'u', '\\']) ∧
    tryMatchUrl (("x\\url\x7b".toList).reverse) ("https://e.co".toList) = none :=
  ⟨by decide, wrap_no_rewrap_at_marker.1 _ _ (by decide)⟩

/-- C10: when a document holds more diagram blocks than the static table,
the pipeline never errors: each variant runs to completion and equals the
gap-copy splice of the induced replacement list, where a block inside the
table resolves to its table entry (image reference in the plantuml
variant, the verbatim ASCII art in the ascii/arxiv variant) and each block
beyond the table is spliced out — replaced by the literal
`[Diagram placeholder]` text in the plantuml variant and deleted (empty
replacement) in the ascii/arxiv variant. -/
theorem process_table_overflow (content : List Char)
    (titles table : List (List Char))
    (h1 : titles.length < (extract_mermaid_blocks content).length)
    (h2 : table.length < (extract_mermaid_blocks content).length) :
    processPlantumlMain content titles (fun _ => true) =
      spliceGap content
        (resolvedRepls (plantumlResolve titles (fun _ => true)) 0
          (extract_mermaid_blocks content)) ∧
    processAsciiMain content table =
      spliceGap content
        (resolvedRepls (asciiResolve table) 0 (extract_mermaid_blocks content)) ∧
    (∀ i, titles.length ≤ i →
      plantumlResolve titles (fun _ => true) i = some placeholderText) ∧
    (∀ i, i < titles.length →
      plantumlResolve titles (fun _ => true) i =
        some (imgRefText (titles.getD i []) (i + 1))) ∧
    (∀ i, table.length ≤ i → asciiResolve table i = some []) ∧
    (∀ i, i < table.length → asciiResolve table i = some (table.getD i [])) := by
  refine ⟨mainLoop_eq_gap content _, mainLoop_eq_gap content _, ?_, ?_, ?_, ?_⟩
  · intro i hi
    simp [plantumlResolve, Nat.not_lt.mpr hi]
  · intro i hi
    simp [plantumlResolve, hi]
  · intro i hi
    simp [asciiResolve, Nat.not_lt.mpr hi]
  · intro i hi
    simp [asciiResolve, hi]

/-- C10, witness: a two-block document against one-entry tables.  The
first two conjuncts discharge the theorem's hypotheses; the conclusion is
the theorem's, instantiated.  (On this instance the plantuml output is
`A\n![T1](diagrams/diagram_1.png){width=85%}\nB\n[Diagram placeholder]\nC`
and the ascii output `A\n(D1)\nB\n\nC`.) -/
theorem process_table_overflow_witness :
    ((["T1".toList] : List (List Char)).length <
      (extract_mermaid_blocks
        ("A\n```mermaid\nx\n```\nB\n```mermaid\ny\n```\nC".toList)).length) ∧
    ((["(D1)".toList] : List (List Char)).length <
      (extract_mermaid_blocks
        ("A\n```mermaid\nx\n```\nB\n```mermaid\ny\n```\nC".toList)).length) ∧
    (processPlantumlMain ("A\n```mermaid\nx\n```\nB\n```mermaid\ny\n```\nC".toList)
        ["T1".toList] (fun _ => true) =
      spliceGap ("A\n```mermaid\nx\n```\nB\n```mermaid\ny\n```\nC".toList)
        (resolvedRepls (plantumlResolve ["T1".toList] (fun _ => true)) 0
          (extract_mermaid_blocks
            ("A\n```mermaid\nx\n```\nB\n```mermaid\ny\n```\nC".toList))) ∧
    processAsciiMain ("A\n```mermaid\nx\n```\nB\n```mermaid\ny\n```\nC".toList)
        ["(D1)".toList] =
      spliceGap ("A\n```mermaid\nx\n```\nB\n```mermaid\ny\n```\nC".toList)
        (resolvedRepls (asciiResolve ["(D1)".toList]) 0
          (extract_mermaid_blocks
            ("A\n```mermaid\nx\n```\nB\n```mermaid\ny\n```\nC".toList))) ∧
    (∀ i, (["T1".toList] : List (List Char)).length ≤ i →
      plantumlResolve ["T1".toList] (fun _ => true) i = some placeholderText) ∧
    (∀ i, i < (["T1".toList] : List (List Char)).length →
      plantumlResolve ["T1".toList] (fun _ => true) i =
        some (imgRefText ((["T1".toList] : List (List Char)).getD i []) (i + 1))) ∧
    (∀ i, (["(D1)".toList] : List (List Char)).length ≤ i →
      asciiResolve ["(D1)".toList] i = some []) ∧
    (∀ i, i < (["(D1)".toList] : List (List Char)).length →
      asciiResolve ["(D1)".toList] i =
        some ((["(D1)".toList] : List (List Char)).getD i []))) :=
  ⟨by decide, by decide,
    process_table_overflow ("A\n```mermaid\nx\n```\nB\n```mermaid\ny\n```\nC".toList)
      ["T1".toList] ["(D1)".toList] (by decide) (by decide)⟩

end Daneel
